import Mathlib

/-!
Verification of the contract-analysis core (`src/core/intelligence.py`).

The Python module under verification performs two deterministic
post-processing stages on the raw text returned by an external
language-model collaborator:

* recovery of a structured JSON record from free-form model text
  (`json.loads` plus `_extract_json_from_text`), and
* keyword-based clause risk scoring and aggregation
  (`_keyword_risk_score`, `_map_score_to_bucket`, `analyze_contract`).

Strings are modelled as `List Char`.  JSON values are modelled by the
inductive `JSONValue`.  The strict parser `jsonLoads` models Python's
`json.loads` restricted to the fragment relevant here: numeric literals
are modelled as optionally signed decimal integers (no fractions,
exponents or leading-zero restriction), string escapes cover the
single-character escapes (no `\uXXXX`), and literal control characters
inside strings are rejected as in strict mode.  Python exceptions that
the analysis pipeline can raise are modelled with `Except PyError`.
-/

namespace ContractBot

/-- JSON values as produced by Python's `json` module: null, booleans,
numbers (modelled as integers), strings, arrays, and objects (modelled
as association lists with distinct keys, insertion ordered). -/
inductive JSONValue where
  | null : JSONValue
  | bool (b : Bool) : JSONValue
  | num (n : Int) : JSONValue
  | str (s : List Char) : JSONValue
  | arr (elems : List JSONValue) : JSONValue
  | obj (members : List (List Char × JSONValue)) : JSONValue
  deriving Repr

/-- Is the value a JSON object (a Python `dict`)? -/
def JSONValue.isObj : JSONValue → Bool
  | .obj _ => true
  | _ => false

/-- The member list of an object, and `[]` on every other value. -/
def JSONValue.objMembers : JSONValue → List (List Char × JSONValue)
  | .obj kvs => kvs
  | _ => []

/-- JSON whitespace characters accepted between tokens by `json.loads`. -/
def isJsonWs (c : Char) : Bool :=
  c == ' ' || c == '\t' || c == '\n' || c == '\r'

/-- Drop leading JSON whitespace. -/
def skipWs : List Char → List Char
  | [] => []
  | c :: rest => if isJsonWs c then skipWs rest else c :: rest

/-- Single-character string escapes of JSON (`\uXXXX` is not modelled). -/
def escChar : Char → Option Char
  | '"' => some '"'
  | '\\' => some '\\'
  | '/' => some '/'
  | 'b' => some (Char.ofNat 8)
  | 'f' => some (Char.ofNat 12)
  | 'n' => some '\n'
  | 'r' => some '\r'
  | 't' => some '\t'
  | _ => none

/-- Parse the body of a JSON string literal after the opening quote,
returning the decoded characters and the remaining input after the
closing quote.  Literal control characters are rejected (strict mode). -/
def parseStringBody : List Char → Option (List Char × List Char)
  | [] => none
  | '"' :: rest => some ([], rest)
  | '\\' :: rest =>
      match rest with
      | [] => none
      | e :: rest2 =>
          match escChar e with
          | some d =>
              match parseStringBody rest2 with
              | some (cs, r) => some (d :: cs, r)
              | none => none
          | none => none
  | c :: rest =>
      if c.toNat < 32 then none
      else
        match parseStringBody rest with
        | some (cs, r) => some (c :: cs, r)
        | none => none

/-- Take the maximal run of leading decimal digits. -/
def takeDigits : List Char → (List Char × List Char)
  | [] => ([], [])
  | c :: rest =>
      if c.isDigit then
        let p := takeDigits rest
        (c :: p.1, p.2)
      else ([], c :: rest)

/-- Numeric value of a digit run. -/
def digitsToNat (ds : List Char) : Nat :=
  ds.foldl (fun acc c => acc * 10 + (c.toNat - 48)) 0

/-- Parse a JSON number (modelled as an optionally signed integer). -/
def parseNumber (s : List Char) : Option (JSONValue × List Char) :=
  match s with
  | '-' :: rest =>
      let p := takeDigits rest
      if p.1 = [] then none else some (.num (-(digitsToNat p.1 : Int)), p.2)
  | _ =>
      let p := takeDigits s
      if p.1 = [] then none else some (.num (digitsToNat p.1 : Int), p.2)

/-- Insert a key/value pair into an object the way a Python `dict` does:
an existing key keeps its position and gets the new value, a new key is
appended at the end. -/
def insertKV (kvs : List (List Char × JSONValue)) (k : List Char) (v : JSONValue) :
    List (List Char × JSONValue) :=
  match kvs with
  | [] => [(k, v)]
  | (k0, v0) :: rest =>
      if k0 = k then (k0, v) :: rest else (k0, v0) :: insertKV rest k v

/-- One pass of the object-member loop: given a parser `pv` for values,
parse `"key": value` pairs separated by commas up to the closing brace.
The first argument is fuel bounding the number of members. -/
def parseMembersF (pv : List Char → Option (JSONValue × List Char)) :
    Nat → List Char → List (List Char × JSONValue) →
    Option (List (List Char × JSONValue) × List Char)
  | 0, _, _ => none
  | fuel + 1, s, acc =>
      match skipWs s with
      | '"' :: rest =>
          match parseStringBody rest with
          | some (key, r1) =>
              match skipWs r1 with
              | ':' :: r2 =>
                  match pv r2 with
                  | some (v, r3) =>
                      let acc2 := insertKV acc key v
                      match skipWs r3 with
                      | ',' :: r4 => parseMembersF pv fuel r4 acc2
                      | '}' :: r4 => some (acc2, r4)
                      | _ => none
                  | none => none
              | _ => none
          | none => none
      | _ => none

/-- One pass of the array-element loop, analogous to `parseMembersF`. -/
def parseElemsF (pv : List Char → Option (JSONValue × List Char)) :
    Nat → List Char → List JSONValue → Option (List JSONValue × List Char)
  | 0, _, _ => none
  | fuel + 1, s, acc =>
      match pv s with
      | some (v, r1) =>
          match skipWs r1 with
          | ',' :: r2 => parseElemsF pv fuel r2 (acc ++ [v])
          | ']' :: r2 => some (acc ++ [v], r2)
          | _ => none
      | none => none

/-- Recursive-descent JSON value parser; the fuel bounds nesting depth. -/
def parseValue : Nat → List Char → Option (JSONValue × List Char)
  | 0, _ => none
  | fuel + 1, s =>
      match skipWs s with
      | '{' :: rest =>
          match skipWs rest with
          | '}' :: r2 => some (.obj [], r2)
          | r2 =>
              match parseMembersF (parseValue fuel) (r2.length + 1) r2 [] with
              | some (kvs, r) => some (.obj kvs, r)
              | none => none
      | '[' :: rest =>
          match skipWs rest with
          | ']' :: r2 => some (.arr [], r2)
          | r2 =>
              match parseElemsF (parseValue fuel) (r2.length + 1) r2 [] with
              | some (xs, r) => some (.arr xs, r)
              | none => none
      | '"' :: rest =>
          match parseStringBody rest with
          | some (cs, r) => some (.str cs, r)
          | none => none
      | 't' :: 'r' :: 'u' :: 'e' :: rest => some (.bool true, rest)
      | 'f' :: 'a' :: 'l' :: 's' :: 'e' :: rest => some (.bool false, rest)
      | 'n' :: 'u' :: 'l' :: 'l' :: rest => some (.null, rest)
      | c :: rest =>
          if c == '-' || c.isDigit then parseNumber (c :: rest) else none
      | [] => none

/-- Model of Python's strict `json.loads`: parse one value and require
that only whitespace remains. -/
def jsonLoads (s : List Char) : Option JSONValue :=
  match parseValue (s.length + 1) s with
  | some (v, rest) => if skipWs rest = [] then some v else none
  | none => none

/-- Exact Boolean list-prefix match. -/
def listStarts : List Char → List Char → Bool
  | [], _ => true
  | _ :: _, [] => false
  | p :: ps, c :: cs => p == c && listStarts ps cs

/-- Case-insensitive character comparison, as under `re.IGNORECASE`. -/
def ciEq (a b : Char) : Bool := a.toLower == b.toLower

/-- Case-insensitive Boolean list-prefix match. -/
def ciStarts : List Char → List Char → Bool
  | [], _ => true
  | _ :: _, [] => false
  | p :: ps, c :: cs => ciEq p c && ciStarts ps cs

/-- The opening fence with a language hint, "```json\n". -/
def fenceJson : List Char :=
  '`' :: '`' :: '`' :: 'j' :: 's' :: 'o' :: 'n' :: '\n' :: []

/-- The opening fence without a language hint, "```\n". -/
def fencePlain : List Char := '`' :: '`' :: '`' :: '\n' :: []

/-- A bare triple backtick, "```". -/
def ticks : List Char := '`' :: '`' :: '`' :: []

/-- One left-to-right pass implementing
`re.sub(r"...(?:json)?\n", "", s_clean, flags=re.IGNORECASE)` (the
elided part of the pattern is the triple backtick): at each position the
greedy optional group first tries "```json\n" case-insensitively, then
"```\n"; a match is removed and scanning resumes after it, otherwise the
character is kept.  The fuel is the input length (one unit per step). -/
def stripOpenGo : Nat → List Char → List Char
  | 0, s => s
  | _ + 1, [] => []
  | fuel + 1, c :: rest =>
      if ciStarts fenceJson (c :: rest) then stripOpenGo fuel (List.drop 8 (c :: rest))
      else if ciStarts fencePlain (c :: rest) then stripOpenGo fuel (List.drop 4 (c :: rest))
      else c :: stripOpenGo fuel rest

/-- One left-to-right pass implementing `s_clean.replace("```", "")`. -/
def stripTicksGo : Nat → List Char → List Char
  | 0, s => s
  | _ + 1, [] => []
  | fuel + 1, c :: rest =>
      if listStarts ticks (c :: rest) then stripTicksGo fuel (List.drop 3 (c :: rest))
      else c :: stripTicksGo fuel rest

/-- The fence stripping of `_extract_json_from_text`: the `re.sub` pass
removing opening fences followed by a line break, then the `.replace`
pass removing every remaining triple backtick. -/
def stripFences (s : List Char) : List Char :=
  let t := stripOpenGo s.length s
  stripTicksGo t.length t

/-- All indices of an opening brace, ascending
(`[m.start() for m in re.finditer(r"\{", s_clean)]`). -/
def braceStarts (s : List Char) : List Nat :=
  (List.range s.length).filter (fun i => s.getD i ' ' == '{')

/-- The depth update of the inner loop: increment on an opening brace,
decrement on a closing brace, otherwise unchanged. -/
def stepDepth (c : Char) (depth : Int) : Int :=
  if c == '{' then depth + 1 else if c == '}' then depth - 1 else depth

/-- The inner loop of the brace scan: walk indices `i` from the current
position keeping a nesting depth; report the index at which a closing
brace returns the depth to zero.  Braces inside quoted string literals
are not distinguished, exactly as in the source. -/
def scanGo : Nat → List Char → Int → Nat → Option Nat
  | 0, _, _, _ => none
  | fuel + 1, s, depth, i =>
      if i < s.length then
        if s.getD i ' ' == '}' && stepDepth (s.getD i ' ') depth == 0 then some i
        else scanGo fuel s (stepDepth (s.getD i ' ') depth) (i + 1)
      else none

/-- Index of the first depth-zero closing brace for a scan starting at
`start`, if the inner loop finds one before the end of the string. -/
def scanEnd (s : List Char) (start : Nat) : Option Nat :=
  scanGo (s.length - start) s 0 start

/-- The candidate substring `s_clean[start : i + 1]` for a given start. -/
def candidateAt (s : List Char) (start : Nat) : Option (List Char) :=
  (scanEnd s start).map (fun i => (s.drop start).take (i + 1 - start))

/-- The outer loop over opening-brace start positions: parse the single
candidate of each start; the first successful parse wins, a failed parse
abandons the start (the `break`) and moves to the next one. -/
def tryStarts (s : List Char) : List Nat → Option JSONValue
  | [] => none
  | st :: rest =>
      match candidateAt s st with
      | some cand =>
          match jsonLoads cand with
          | some v => some v
          | none => tryStarts s rest
      | none => tryStarts s rest

/-- `_extract_json_from_text`: guard against an empty string, strip
fences, then scan for the first parseable object literal. -/
def extractJsonFromText (s : List Char) : Option JSONValue :=
  if s = [] then none
  else
    let sclean := stripFences s
    tryStarts sclean (braceStarts sclean)

/-- The key of the fallback wrapper record. -/
def rawKey : List Char := 'r' :: 'a' :: 'w' :: []

/-- The fallback wrapper `{"raw": rawText}` built from the original,
unmodified text. -/
def wrapperRecord (rawText : List Char) : JSONValue :=
  .obj [(rawKey, .str rawText)]

/-- The recovery performed by `analyze_contract` to bind `parsed`: a
direct `json.loads`, then the salvage scan, then the wrapper. -/
def recoverParsed (rawText : List Char) : JSONValue :=
  match jsonLoads rawText with
  | some v => v
  | none =>
      match extractJsonFromText rawText with
      | some v => v
      | none => wrapperRecord rawText

/-- High-tier keywords of `RISK_KEYWORDS`. -/
def highKeywords : List (List Char) :=
  [("penalty".data), ("indemnity".data), ("unilateral".data),
   ("terminate without".data), ("liquidated damages".data)]

/-- Medium-tier keywords of `RISK_KEYWORDS`. -/
def mediumKeywords : List (List Char) :=
  [("auto-renew".data), ("renewal".data), ("notice period".data),
   ("arbitration".data), ("governing law".data)]

/-- Low-tier keywords of `RISK_KEYWORDS`. -/
def lowKeywords : List (List Char) :=
  [("confidential".data), ("nda".data), ("non-disclosure".data)]

/-- The `RISK_KEYWORDS` table in its iteration order, each level paired
with the weight the `if/elif/else` ladder of `_keyword_risk_score`
assigns to it (high 30, medium 15, low 5). -/
def keywordTiers : List (Nat × List (List Char)) :=
  [(30, highKeywords), (15, mediumKeywords), (5, lowKeywords)]

/-- Python's substring containment `w in t`. -/
def containsSub (w : List Char) : List Char → Bool
  | [] => listStarts w []
  | c :: rest => listStarts w (c :: rest) || containsSub w rest

/-- The accumulator loop of `_keyword_risk_score` over the already
lower-cased text. -/
def keywordRiskScoreRaw (t : List Char) : Nat :=
  keywordTiers.foldl
    (fun acc tier =>
      tier.2.foldl (fun a w => if containsSub w t then a + tier.1 else a) acc) 0

/-- `_keyword_risk_score`: lower-case the text once (`str.lower`,
modelled on basic latin letters), add each tier weight once per keyword
present as a substring, clamp at 100. -/
def keywordRiskScore (text : List Char) : Nat :=
  min 100 (keywordRiskScoreRaw (text.map Char.toLower))

/-- The three severity buckets. -/
inductive Bucket where
  | low
  | medium
  | high
  deriving DecidableEq, Repr

/-- `_map_score_to_bucket`: fixed thresholds at 60 and 30. -/
def mapScoreToBucket (score : Int) : Bucket :=
  if score ≥ 60 then .high
  else if score ≥ 30 then .medium
  else .low

/-- Python exceptions the clause loop of `analyze_contract` can raise. -/
inductive PyError where
  | attributeError
  | typeError
  deriving DecidableEq, Repr

/-- One entry of `clause_highlights`: the dict
`{"title": ..., "text": ..., "score": ..., "bucket": ...}`.  The title
is `None` or an arbitrary JSON value, exactly as `c.get("title")`
produces it. -/
structure ClauseHighlight where
  title : Option JSONValue
  text : List Char
  score : Nat
  bucket : Bucket

/-- The dict returned by `analyze_contract`. -/
structure AnalysisResult where
  assistant_content : List Char
  parsed : JSONValue
  clause_highlights : List ClauseHighlight
  composite_risk_score : Nat
  composite_risk_bucket : Bucket

/-- Python `dict.get`: the value under `k`, if present.  Keys are unique
because parsed objects are built with `insertKV`. -/
def objGet (kvs : List (List Char × JSONValue)) (k : List Char) : Option JSONValue :=
  match kvs with
  | [] => none
  | (k0, v) :: rest => if k0 = k then some v else objGet rest k

/-- Python truthiness of a JSON value. -/
def truthy : JSONValue → Bool
  | .null => false
  | .bool b => b
  | .num n => n != 0
  | .str s => !s.isEmpty
  | .arr xs => !xs.isEmpty
  | .obj kvs => !kvs.isEmpty

/-- The key "clauses". -/
def clausesKey : List Char := 'c' :: 'l' :: 'a' :: 'u' :: 's' :: 'e' :: 's' :: []

/-- The key "title". -/
def titleKey : List Char := 't' :: 'i' :: 't' :: 'l' :: 'e' :: []

/-- The key "text". -/
def textKey : List Char := 't' :: 'e' :: 'x' :: 't' :: []

/-- `parsed.get("clauses")` guarded by `isinstance(parsed, dict)`. -/
def clauseEntries (parsed : JSONValue) : Option JSONValue :=
  match parsed with
  | .obj kvs => objGet kvs clausesKey
  | _ => none

/-- Python `for c in v`: an array yields its elements, a string its
characters as one-character strings, a dict its keys; every other value
raises `TypeError`. -/
def pyIter : JSONValue → Except PyError (List JSONValue)
  | .arr xs => .ok xs
  | .str s => .ok (s.map (fun ch => .str [ch]))
  | .obj kvs => .ok (kvs.map (fun kv => .str kv.1))
  | _ => .error .typeError

/-- The body of the clause loop: `title = c.get("title") if ... else
None`, `body = c.get("text") if ... else (c if isinstance(c, str) else
"")`, then `_keyword_risk_score(body)`.  When `body` is not a string
(in particular `None`, from a dict entry without a "text" key), the
call `body.lower()` inside the scorer raises `AttributeError`. -/
def buildClause (c : JSONValue) : Except PyError ClauseHighlight :=
  let title : Option JSONValue :=
    match c with
    | .obj kvs => objGet kvs titleKey
    | _ => none
  let body : Option JSONValue :=
    match c with
    | .obj kvs => objGet kvs textKey
    | .str s => some (.str s)
    | _ => some (.str [])
  match body with
  | some (.str b) =>
      let sc := keywordRiskScore b
      .ok ⟨title, b, sc, mapScoreToBucket (sc : Int)⟩
  | _ => .error .attributeError

/-- The fallback branch: one synthetic clause whose displayed body is
`text[:1000]` but whose score is computed from the full `text`. -/
def fallbackHighlights (text : List Char) : List ClauseHighlight :=
  let sc := keywordRiskScore text
  [⟨none, text.take 1000, sc, mapScoreToBucket (sc : Int)⟩]

/-- The composite computation of `analyze_contract`:
`int(sum(scores) / max(1, len(scores)))` and its bucket.  For the
non-negative integer scores produced here the float division truncates
to the floor, modelled as exact natural division. -/
def compositeOf (highlights : List ClauseHighlight) : Nat × Bucket :=
  let avg := (highlights.map ClauseHighlight.score).sum / max 1 highlights.length
  (avg, mapScoreToBucket (avg : Int))

/-- The clause loop of `analyze_contract`: build one highlight per
entry, in order; an exception raised by an iteration propagates. -/
def buildClauses : List JSONValue → Except PyError (List ClauseHighlight)
  | [] => .ok []
  | c :: rest =>
      (buildClause c).bind (fun h =>
        (buildClauses rest).bind (fun hs => .ok (h :: hs)))

/-- The clause-highlight derivation of `analyze_contract`: the
`if isinstance(parsed, dict) and parsed.get("clauses")` branch iterates
the clauses value building one entry per element, everything else takes
the fallback branch. -/
def deriveHighlights (text : List Char) (parsed : JSONValue) :
    Except PyError (List ClauseHighlight) :=
  match clauseEntries parsed with
  | some v =>
      if truthy v then (pyIter v).bind buildClauses
      else .ok (fallbackHighlights text)
  | none => .ok (fallbackHighlights text)

/-- The dict literal returned by `analyze_contract`. -/
def assembleResult (assistantContent : List Char) (parsed : JSONValue)
    (highlights : List ClauseHighlight) : AnalysisResult :=
  let comp := compositeOf highlights
  { assistant_content := assistantContent
    parsed := parsed
    clause_highlights := highlights
    composite_risk_score := comp.1
    composite_risk_bucket := comp.2 }

/-- The post-processing of `analyze_contract`, taking the external
collaborator's response `assistantContent` as a parameter: recover
`parsed`, derive the clause highlights (or fall back to one synthetic
clause), aggregate, and assemble the result. -/
def analyzePost (text assistantContent : List Char) : Except PyError AnalysisResult :=
  (deriveHighlights text (recoverParsed assistantContent)).bind
    (fun highlights =>
      .ok (assembleResult assistantContent (recoverParsed assistantContent) highlights))

/-- The fenced form "```json\n" + m + "\n```" of a text `m`. -/
def fenceWrap (m : List Char) : List Char :=
  fenceJson ++ m ++ '\n' :: ticks

/-- Every keyword of the table, across all tiers. -/
def allKeywords : List (List Char) :=
  highKeywords ++ mediumKeywords ++ lowKeywords

/-- Brace surplus of a segment: occurrences of opening braces minus
occurrences of closing braces. -/
def netDepth (l : List Char) : Int :=
  (l.count '{' : Int) - (l.count '}' : Int)

/-- Modelled from the spec's words, for refinement comparison with the
scan loop: the first index `i` at or after `start` holding a closing
brace at which the braces of `s[start..i]` balance out (the "first
depth-zero closing brace"). -/
def specCloseIdx (s : List Char) (start : Nat) : Option Nat :=
  (List.range' start (s.length - start)).find?
    (fun i => s.getD i ' ' == '}' && netDepth ((s.take (i + 1)).drop start) == 0)

/-- Modelled from the spec's words, for refinement comparison with the
source's outer loop: each opening-brace position, in ascending order,
contributes the parse of its single candidate (ending at the first
depth-zero closing brace) when that parse succeeds, and nothing when it
fails or no closure exists; the first contribution wins. -/
def specScan (s : List Char) : Option JSONValue :=
  ((braceStarts s).filterMap
    (fun st => (specCloseIdx s st).bind
      (fun i => jsonLoads ((s.drop st).take (i + 1 - st))))).head?

/-! ## Helper lemmas -/

theorem listStarts_append {w s : List Char} (x : List Char)
    (h : listStarts w s = true) : listStarts w (s ++ x) = true := by
  induction w generalizing s with
  | nil => simp [listStarts]
  | cons p ps ih =>
    cases s with
    | nil => simp [listStarts] at h
    | cons c cs =>
      simp only [List.cons_append, listStarts, Bool.and_eq_true] at h ⊢
      exact ⟨h.1, ih h.2⟩

theorem containsSub_nil_needle (x : List Char) : containsSub [] x = true := by
  induction x with
  | nil => rfl
  | cons c rest ih => simp [containsSub, listStarts]

theorem containsSub_append {w t : List Char} (x : List Char)
    (h : containsSub w t = true) : containsSub w (t ++ x) = true := by
  induction t with
  | nil =>
    cases w with
    | nil => exact containsSub_nil_needle x
    | cons p ps => simp [containsSub, listStarts] at h
  | cons c cs ih =>
    simp only [containsSub, Bool.or_eq_true] at h
    simp only [List.cons_append, containsSub, Bool.or_eq_true]
    rcases h with h | h
    · exact Or.inl (listStarts_append x h)
    · exact Or.inr (ih h)

theorem tierFold_congr {t1 t2 : List Char} (w : Nat) (ws : List (List Char))
    (h : ∀ kw ∈ ws, containsSub kw t1 = containsSub kw t2) (acc : Nat) :
    ws.foldl (fun a kw => if containsSub kw t1 then a + w else a) acc =
      ws.foldl (fun a kw => if containsSub kw t2 then a + w else a) acc := by
  induction ws generalizing acc with
  | nil => rfl
  | cons kw rest ih =>
    simp only [List.foldl_cons]
    rw [h kw (by simp)]
    exact ih (fun k hk => h k (by simp [hk])) _

theorem keywordRiskScoreRaw_congr {t1 t2 : List Char}
    (h : ∀ kw ∈ allKeywords, containsSub kw t1 = containsSub kw t2) :
    keywordRiskScoreRaw t1 = keywordRiskScoreRaw t2 := by
  have hh : ∀ kw ∈ highKeywords, containsSub kw t1 = containsSub kw t2 :=
    fun kw hk => h kw (by simp [allKeywords, hk])
  have hm : ∀ kw ∈ mediumKeywords, containsSub kw t1 = containsSub kw t2 :=
    fun kw hk => h kw (by simp [allKeywords, hk])
  have hl : ∀ kw ∈ lowKeywords, containsSub kw t1 = containsSub kw t2 :=
    fun kw hk => h kw (by simp [allKeywords, hk])
  unfold keywordRiskScoreRaw keywordTiers
  simp only [List.foldl_cons, List.foldl_nil]
  rw [tierFold_congr 30 highKeywords hh, tierFold_congr 15 mediumKeywords hm,
    tierFold_congr 5 lowKeywords hl]

/-! ## Claim theorems: scoring and bucketing -/

/-- C8: the bucket mapping is the fixed step function of the score:
scores at least 60 map to High, scores in [30, 60) to Medium, scores
below 30 to Low; in particular 29 is Low, 30 and 59 are Medium, and 60
is High. -/
theorem C8_bucket_step :
    (∀ s : Int, 60 ≤ s → mapScoreToBucket s = .high) ∧
    (∀ s : Int, 30 ≤ s → s < 60 → mapScoreToBucket s = .medium) ∧
    (∀ s : Int, s < 30 → mapScoreToBucket s = .low) ∧
    mapScoreToBucket 29 = .low ∧ mapScoreToBucket 30 = .medium ∧
    mapScoreToBucket 59 = .medium ∧ mapScoreToBucket 60 = .high := by
  refine ⟨fun s h => ?_, fun s h1 h2 => ?_, fun s h => ?_,
    by decide, by decide, by decide, by decide⟩
  · unfold mapScoreToBucket
    rw [if_pos (by omega : s ≥ 60)]
  · unfold mapScoreToBucket
    rw [if_neg (by omega : ¬ s ≥ 60), if_pos (by omega : s ≥ 30)]
  · unfold mapScoreToBucket
    rw [if_neg (by omega : ¬ s ≥ 60), if_neg (by omega : ¬ s ≥ 30)]

theorem C8_bucket_step_witness : mapScoreToBucket 75 = .high :=
  C8_bucket_step.1 75 (by decide)

/-- C7: the clause risk score is presence-based, not frequency-based:
whenever repeating a text `t` (with a space separator) introduces no new
keyword of the table as a substring of the lower-cased text,
`score(t + " " + t)` equals `score(t)`. -/
theorem C7_score_repetition_invariant (t : List Char)
    (h : ∀ kw ∈ allKeywords,
        containsSub kw ((t ++ ' ' :: t).map Char.toLower) = true →
        containsSub kw (t.map Char.toLower) = true) :
    keywordRiskScore (t ++ ' ' :: t) = keywordRiskScore t := by
  unfold keywordRiskScore
  congr 1
  apply keywordRiskScoreRaw_congr
  intro kw hkw
  have hmap : (t ++ ' ' :: t).map Char.toLower
      = t.map Char.toLower ++ (' ' :: t).map Char.toLower := by
    simp
  by_cases hc : containsSub kw (t.map Char.toLower) = true
  · rw [hc, hmap]
    exact containsSub_append _ hc
  · have hx : containsSub kw ((t ++ ' ' :: t).map Char.toLower) ≠ true :=
      fun hy => hc (h kw hkw hy)
    simp only [Bool.not_eq_true] at hc hx
    rw [hc, hx]

theorem C7_witness :
    keywordRiskScore (("penalty".data) ++ ' ' :: ("penalty".data)) =
      keywordRiskScore ("penalty".data) :=
  C7_score_repetition_invariant _ (by decide)

/-! ## Claim theorems: pipeline aggregation -/

theorem analyzePost_ok {t a : List Char} {r : AnalysisResult}
    (h : analyzePost t a = .ok r) :
    ∃ hl, deriveHighlights t (recoverParsed a) = .ok hl ∧
      r = assembleResult a (recoverParsed a) hl := by
  unfold analyzePost at h
  cases hE : deriveHighlights t (recoverParsed a) with
  | error e =>
    rw [hE] at h
    exact absurd h (by simp [Except.bind])
  | ok hl =>
    rw [hE] at h
    simp only [Except.bind, Except.ok.injEq] at h
    exact ⟨hl, rfl, h.symm⟩

/-- C9: for a non-empty clause list the composite score computed by
`analyze_contract` is the integer floor of the arithmetic mean of the
clause scores, and the composite bucket is the bucket of that composite
score; in particular aggregating scores [30, 60] yields (45, Medium). -/
theorem C9_composite_floor_mean :
    (∀ text assistant : List Char, ∀ r : AnalysisResult,
      analyzePost text assistant = .ok r → r.clause_highlights ≠ [] →
      r.composite_risk_score =
        ⌊((r.clause_highlights.map ClauseHighlight.score).sum : ℚ) /
          (r.clause_highlights.length : ℚ)⌋₊ ∧
      r.composite_risk_bucket = mapScoreToBucket (r.composite_risk_score : Int)) ∧
    compositeOf [⟨none, [], 30, Bucket.medium⟩, ⟨none, [], 60, Bucket.high⟩] =
      (45, Bucket.medium) := by
  constructor
  · intro text assistant r hr hne
    obtain ⟨hl, _, rfl⟩ := analyzePost_ok hr
    have hlen : max 1 hl.length = hl.length := by
      cases hl with
      | nil => exact absurd rfl hne
      | cons x xs => simp [Nat.max_eq_right, Nat.succ_le_succ]
    constructor
    · show (compositeOf hl).1 = _
      unfold compositeOf
      simp only []
      rw [hlen, Nat.floor_div_eq_div]
      rfl
    · rfl
  · rfl

theorem C9_witness :
    (assembleResult [] (wrapperRecord []) (fallbackHighlights [])).composite_risk_score =
      ⌊(((assembleResult [] (wrapperRecord [])
            (fallbackHighlights [])).clause_highlights.map ClauseHighlight.score).sum : ℚ) /
        ((assembleResult [] (wrapperRecord [])
            (fallbackHighlights [])).clause_highlights.length : ℚ)⌋₊ :=
  (C9_composite_floor_mean.1 [] [] _ rfl (List.cons_ne_nil _ _)).1

/-- C3: the claim that a mapping clause entry lacking the "text" key is
tolerated (body defaulting to the empty string, the analysis never
raising) fails on the code: for the recovered value
`{"clauses": [{}]}` the clause loop computes `body = None` and
`_keyword_risk_score(None)` raises `AttributeError` on `None.lower()`. -/
theorem C3_missing_text_key_raises :
    analyzePost []
      ('{' :: '"' :: 'c' :: 'l' :: 'a' :: 'u' :: 's' :: 'e' :: 's' :: '"' ::
        ':' :: '[' :: '{' :: '}' :: ']' :: '}' :: []) =
      .error PyError.attributeError := rfl

/-! ## Helper lemmas: shape of recovered values -/

theorem scanGo_ge {fuel : Nat} {s : List Char} {d : Int} {i j : Nat}
    (h : scanGo fuel s d i = some j) : i ≤ j := by
  induction fuel generalizing d i with
  | zero => exact absurd h (by simp [scanGo])
  | succ fuel ih =>
    unfold scanGo at h
    split at h
    · split at h
      · cases h
        exact Nat.le_refl _
      · exact Nat.le_of_succ_le (ih h)
    · exact absurd h (by simp)

theorem parseValue_head_brace {fuel : Nat} {r rest : List Char} {v : JSONValue}
    (h : parseValue (fuel + 1) ('{' :: r) = some (v, rest)) : v.isObj = true := by
  rw [show parseValue (fuel + 1) ('{' :: r) =
      (match skipWs r with
       | '}' :: r2 => some (JSONValue.obj [], r2)
       | r2 =>
           match parseMembersF (parseValue fuel) (r2.length + 1) r2 [] with
           | some (kvs, rr) => some (.obj kvs, rr)
           | none => none) from rfl] at h
  split at h
  · simp only [Option.some.injEq, Prod.mk.injEq] at h
    rw [← h.1]
    rfl
  · split at h
    · simp only [Option.some.injEq, Prod.mk.injEq] at h
      rw [← h.1]
      rfl
    · exact absurd h (by simp)

theorem jsonLoads_brace_obj {r : List Char} {v : JSONValue}
    (h : jsonLoads ('{' :: r) = some v) : v.isObj = true := by
  unfold jsonLoads at h
  split at h
  · next val rest heq =>
    split at h
    · cases h
      exact parseValue_head_brace heq
    · exact absurd h (by simp)
  · exact absurd h (by simp)

theorem candidateAt_head {s : List Char} {st : Nat} {cand : List Char}
    (hlt : st < s.length) (hbr : s.getD st ' ' = '{')
    (hc : candidateAt s st = some cand) : ∃ t, cand = '{' :: t := by
  unfold candidateAt at hc
  cases he : scanEnd s st with
  | none => rw [he] at hc; exact absurd hc (by simp)
  | some i =>
    rw [he] at hc
    simp only [Option.map_some', Option.some.injEq] at hc
    have hi : st ≤ i := scanGo_ge he
    have hget : s[st] = '{' := by
      rw [← List.getD_eq_getElem s ' ' hlt]
      exact hbr
    have hd : s.drop st = '{' :: s.drop (st + 1) := by
      rw [List.drop_eq_getElem_cons hlt, hget]
    have hk : i + 1 - st = (i - st) + 1 := by omega
    rw [hd, hk] at hc
    exact ⟨_, hc.symm⟩

theorem braceStarts_mem {s : List Char} :
    ∀ st ∈ braceStarts s, st < s.length ∧ s.getD st ' ' = '{' := by
  intro st hst
  unfold braceStarts at hst
  simp only [List.mem_filter, List.mem_range, beq_iff_eq] at hst
  exact hst

theorem tryStarts_obj {s : List Char} {starts : List Nat} {v : JSONValue}
    (hst : ∀ st ∈ starts, st < s.length ∧ s.getD st ' ' = '{')
    (h : tryStarts s starts = some v) : v.isObj = true := by
  induction starts with
  | nil => exact absurd h (by simp [tryStarts])
  | cons st rest ih =>
    unfold tryStarts at h
    split at h
    · next cand hc =>
      split at h
      · next v2 hj =>
        cases h
        obtain ⟨hlt, hbr⟩ := hst st (by simp)
        obtain ⟨t, rfl⟩ := candidateAt_head hlt hbr hc
        exact jsonLoads_brace_obj hj
      · exact ih (fun x hx => hst x (by simp [hx])) h
    · exact ih (fun x hx => hst x (by simp [hx])) h

theorem extract_obj {s : List Char} {v : JSONValue}
    (h : extractJsonFromText s = some v) : v.isObj = true := by
  unfold extractJsonFromText at h
  by_cases hnil : s = []
  · rw [if_pos hnil] at h
    cases h
  · rw [if_neg hnil] at h
    exact tryStarts_obj braceStarts_mem h

/-! ## Claim theorems: the shape of recovery -/

/-- C1 (amended): when the direct strict parse of the raw text fails,
the recovered value is always a mapping (a salvaged object literal or
the wrapper); when the direct parse succeeds, recovery returns the
parsed value unchanged, even when it is not a mapping. -/
theorem C1_recovered_mapping (rawText : List Char) :
    (∀ v, jsonLoads rawText = some v → recoverParsed rawText = v) ∧
    (jsonLoads rawText = none → (recoverParsed rawText).isObj = true) := by
  constructor
  · intro v h
    unfold recoverParsed
    rw [h]
  · intro h
    unfold recoverParsed
    rw [h]
    cases hx : extractJsonFromText rawText with
    | none => rfl
    | some v => exact extract_obj hx

/-- C1 counterexample: the raw text "3" is valid JSON text denoting a
number, and recovery returns that bare number, not a mapping. -/
theorem C1_counterexample :
    recoverParsed ('3' :: []) = JSONValue.num 3 ∧
      (recoverParsed ('3' :: [])).isObj = false :=
  ⟨rfl, rfl⟩

theorem C1_witness : (recoverParsed ('h' :: 'i' :: [])).isObj = true :=
  (C1_recovered_mapping ('h' :: 'i' :: [])).2 rfl

theorem stripOpenGo_mem {c : Char} :
    ∀ fuel (s : List Char), c ∈ stripOpenGo fuel s → c ∈ s := by
  intro fuel
  induction fuel with
  | zero => intro s h; exact h
  | succ fuel ih =>
    intro s h
    cases s with
    | nil => exact h
    | cons a rest =>
      unfold stripOpenGo at h
      split at h
      · exact List.drop_subset _ _ (ih _ h)
      · split at h
        · exact List.drop_subset _ _ (ih _ h)
        · cases h with
          | head => exact List.Mem.head _
          | tail _ hm => exact List.Mem.tail _ (ih _ hm)

theorem stripTicksGo_mem {c : Char} :
    ∀ fuel (s : List Char), c ∈ stripTicksGo fuel s → c ∈ s := by
  intro fuel
  induction fuel with
  | zero => intro s h; exact h
  | succ fuel ih =>
    intro s h
    cases s with
    | nil => exact h
    | cons a rest =>
      unfold stripTicksGo at h
      split at h
      · exact List.drop_subset _ _ (ih _ h)
      · cases h with
        | head => exact List.Mem.head _
        | tail _ hm => exact List.Mem.tail _ (ih _ hm)

theorem stripFences_mem {c : Char} {s : List Char}
    (h : c ∈ stripFences s) : c ∈ s := by
  unfold stripFences at h
  exact stripOpenGo_mem _ _ (stripTicksGo_mem _ _ h)

theorem braceStarts_eq_nil {s : List Char} (h : '{' ∉ s) : braceStarts s = [] := by
  unfold braceStarts
  rw [List.filter_eq_nil_iff]
  intro i hi
  simp only [List.mem_range] at hi
  simp only [beq_iff_eq]
  intro hp
  apply h
  rw [List.getD_eq_getElem s ' ' hi] at hp
  rw [← hp]
  exact List.getElem_mem hi

/-- C2 (amended): for every string that contains no opening brace and is
not itself valid strict JSON text, recovery returns exactly the wrapper
mapping built from the original string verbatim. -/
theorem C2_no_brace_wrapper (s : List Char) (hb : '{' ∉ s)
    (hj : jsonLoads s = none) : recoverParsed s = wrapperRecord s := by
  unfold recoverParsed
  rw [hj]
  have hx : extractJsonFromText s = none := by
    unfold extractJsonFromText
    by_cases hnil : s = []
    · rw [if_pos hnil]
    · rw [if_neg hnil]
      have hb2 : '{' ∉ stripFences s := fun hm => hb (stripFences_mem hm)
      show tryStarts (stripFences s) (braceStarts (stripFences s)) = none
      rw [braceStarts_eq_nil hb2]
      rfl
  rw [hx]

/-- C2 counterexample: the string "3" contains no opening brace, yet
recovery returns the parsed number 3, not the wrapper mapping. -/
theorem C2_counterexample :
    '{' ∉ ('3' :: []) ∧ recoverParsed ('3' :: []) ≠ wrapperRecord ('3' :: []) := by
  refine ⟨by decide, fun h => ?_⟩
  exact absurd (congrArg JSONValue.isObj h) (by decide)

theorem C2_witness :
    recoverParsed ('n' :: 'o' :: 'p' :: 'e' :: []) =
      wrapperRecord ('n' :: 'o' :: 'p' :: 'e' :: []) :=
  C2_no_brace_wrapper _ (by decide) rfl

/-! ## Claim theorems: clause derivation -/

/-- C6: whenever the recovered mapping has a "clauses" key that is
absent or an empty list (which covers the wrapper record, whose only key
is "raw"), the analysis produces exactly one synthetic clause with no
title, displayed body the first 1000 characters of the contract text,
and score computed from the full, untruncated contract text. -/
theorem C6_fallback_clause (text assistant : List Char)
    (kvs : List (List Char × JSONValue))
    (hobj : recoverParsed assistant = .obj kvs)
    (hcl : objGet kvs clausesKey = none ∨ objGet kvs clausesKey = some (.arr [])) :
    Except.map AnalysisResult.clause_highlights (analyzePost text assistant) =
      .ok [⟨none, text.take 1000, keywordRiskScore text,
        mapScoreToBucket (keywordRiskScore text : Int)⟩] := by
  have hce : clauseEntries (recoverParsed assistant) = objGet kvs clausesKey := by
    rw [hobj]
    rfl
  have hd : deriveHighlights text (recoverParsed assistant) =
      .ok (fallbackHighlights text) := by
    unfold deriveHighlights
    rw [hce]
    rcases hcl with h | h
    · rw [h]
    · rw [h]
      rfl
  unfold analyzePost
  rw [hd]
  rfl

theorem C6_witness :
    Except.map AnalysisResult.clause_highlights
        (analyzePost
          (("This agreement includes a confidentiality and indemnity obligation.").data)
          (("sorry, no valid data").data)) =
      .ok [⟨none,
        (("This agreement includes a confidentiality and indemnity obligation.").data).take 1000,
        keywordRiskScore
          (("This agreement includes a confidentiality and indemnity obligation.").data),
        mapScoreToBucket (keywordRiskScore
          (("This agreement includes a confidentiality and indemnity obligation.").data) : Int)⟩] :=
  C6_fallback_clause _ _ _ rfl (Or.inl rfl)

theorem buildClauses_chars (s : List Char) :
    buildClauses (s.map (fun ch => JSONValue.str [ch])) =
      .ok (s.map (fun ch => (⟨none, [ch], keywordRiskScore [ch],
        mapScoreToBucket (keywordRiskScore [ch] : Int)⟩ : ClauseHighlight))) := by
  induction s with
  | nil => rfl
  | cons c rest ih =>
    simp only [List.map_cons, buildClauses]
    rw [show buildClause (JSONValue.str [c]) =
        .ok ⟨none, [c], keywordRiskScore [c],
          mapScoreToBucket (keywordRiskScore [c] : Int)⟩ from rfl]
    rw [show ∀ e : Except PyError ClauseHighlight, ∀ f,
        Except.bind e f = e.bind f from fun _ _ => rfl]
    rw [ih]
    rfl

/-- C10: for a recovered mapping whose "clauses" value is a non-empty
string, the analysis iterates the string character by character and
produces one highlight per character, each with no title, body the
single character, and that character's score and bucket. -/
theorem C10_string_clauses_per_char (text assistant : List Char)
    (kvs : List (List Char × JSONValue)) (s : List Char)
    (hobj : recoverParsed assistant = .obj kvs)
    (hcl : objGet kvs clausesKey = some (.str s))
    (hne : s ≠ []) :
    Except.map AnalysisResult.clause_highlights (analyzePost text assistant) =
      .ok (s.map (fun ch => ⟨none, [ch], keywordRiskScore [ch],
        mapScoreToBucket (keywordRiskScore [ch] : Int)⟩)) := by
  have hce : clauseEntries (recoverParsed assistant) = some (.str s) := by
    rw [hobj]
    exact hcl
  have htr : truthy (JSONValue.str s) = true := by
    cases s with
    | nil => exact absurd rfl hne
    | cons a r => rfl
  have hd : deriveHighlights text (recoverParsed assistant) =
      buildClauses (s.map (fun ch => JSONValue.str [ch])) := by
    unfold deriveHighlights
    rw [hce]
    show (if truthy (JSONValue.str s) = true
      then (pyIter (JSONValue.str s)).bind buildClauses
      else .ok (fallbackHighlights text)) = _
    rw [if_pos htr]
    rfl
  unfold analyzePost
  rw [hd, buildClauses_chars]
  rfl

theorem C10_witness :
    Except.map AnalysisResult.clause_highlights
        (analyzePost []
          ('{' :: '"' :: 'c' :: 'l' :: 'a' :: 'u' :: 's' :: 'e' :: 's' :: '"' ::
            ':' :: '"' :: 'a' :: 'b' :: '"' :: '}' :: [])) =
      .ok ((('a' :: 'b' :: []).map (fun ch => ⟨none, [ch], keywordRiskScore [ch],
        mapScoreToBucket (keywordRiskScore [ch] : Int)⟩))) :=
  C10_string_clauses_per_char _ _ _ _ rfl rfl (by decide)

/-! ## Helper lemmas: the brace scan against its specification -/

theorem netDepth_append_one (X : List Char) (c : Char) :
    netDepth (X ++ [c]) = stepDepth c (netDepth X) := by
  unfold netDepth stepDepth
  rcases eq_or_ne c '{' with rfl | h1
  · simp [List.count_append, List.count_singleton]
    ring
  · rcases eq_or_ne c '}' with rfl | h2
    · simp [List.count_append, List.count_singleton]
      ring
    · have hb1 : (c == '{') = false := by simp [h1]
      have hb2 : (c == '}') = false := by simp [h2]
      simp [List.count_append, List.count_singleton, hb1, hb2]

theorem netDepth_slice_succ {s : List Char} {start i : Nat}
    (hstart : start ≤ i) (hi : i < s.length) :
    netDepth ((s.take (i + 1)).drop start) =
      stepDepth (s.getD i ' ') (netDepth ((s.take i).drop start)) := by
  have htake : s.take (i + 1) = s.take i ++ [s[i]] := by
    rw [List.take_succ, List.getElem?_eq_getElem hi]
    rfl
  have hlen : start ≤ (s.take i).length := by
    rw [List.length_take]
    omega
  rw [htake, List.drop_append_of_le_length hlen, netDepth_append_one,
    List.getD_eq_getElem s ' ' hi]

theorem scanGo_spec (s : List Char) (start : Nat) :
    ∀ fuel i d, start ≤ i → fuel = s.length - i →
      d = netDepth ((s.take i).drop start) →
      scanGo fuel s d i =
        (List.range' i fuel).find?
          (fun j => s.getD j ' ' == '}' &&
            netDepth ((s.take (j + 1)).drop start) == 0) := by
  intro fuel
  induction fuel with
  | zero => intro i d _ _ _; rfl
  | succ fuel ih =>
    intro i d hstart hfuel hd
    have hi : i < s.length := by omega
    have hkey : netDepth ((s.take (i + 1)).drop start) =
        stepDepth (s.getD i ' ') d := by
      rw [hd]
      exact netDepth_slice_succ hstart hi
    rw [List.range'_succ]
    unfold scanGo
    rw [if_pos hi]
    by_cases hb : (s.getD i ' ' == '}' && stepDepth (s.getD i ' ') d == 0) = true
    · rw [if_pos hb, List.find?_cons_of_pos]
      rw [hkey]
      exact hb
    · rw [if_neg hb, List.find?_cons_of_neg]
      · exact ih (i + 1) _ (by omega) (by omega) hkey.symm
      · rw [hkey]
        exact hb

theorem scanEnd_eq_specCloseIdx (s : List Char) (start : Nat) :
    scanEnd s start = specCloseIdx s start := by
  unfold scanEnd specCloseIdx
  have h0 : (0 : Int) = netDepth ((s.take start).drop start) := by
    have he : (s.take start).drop start = [] :=
      List.drop_eq_nil_of_le (by rw [List.length_take]; omega)
    rw [he]
    rfl
  exact scanGo_spec s start (s.length - start) start 0 (Nat.le_refl _) rfl h0

theorem tryStarts_eq_filterMap (s : List Char) (starts : List Nat) :
    tryStarts s starts =
      (starts.filterMap (fun st => (candidateAt s st).bind jsonLoads)).head? := by
  induction starts with
  | nil => rfl
  | cons st rest ih =>
    cases hc : candidateAt s st with
    | none =>
      have hl : tryStarts s (st :: rest) = tryStarts s rest := by
        show (match candidateAt s st with
              | some cand2 =>
                  match jsonLoads cand2 with
                  | some v => some v
                  | none => tryStarts s rest
              | none => tryStarts s rest) = tryStarts s rest
        rw [hc]
      rw [hl, List.filterMap_cons_none]
      · exact ih
      · show (candidateAt s st).bind jsonLoads = none
        rw [hc]
        rfl
    | some cand =>
      have hl : tryStarts s (st :: rest) =
          (match jsonLoads cand with
           | some v => some v
           | none => tryStarts s rest) := by
        show (match candidateAt s st with
              | some cand2 =>
                  match jsonLoads cand2 with
                  | some v => some v
                  | none => tryStarts s rest
              | none => tryStarts s rest) = _
        rw [hc]
      rw [hl]
      cases hj : jsonLoads cand with
      | none =>
        rw [List.filterMap_cons_none]
        · exact ih
        · show (candidateAt s st).bind jsonLoads = none
          rw [hc]
          show jsonLoads cand = none
          exact hj
      | some v =>
        rw [List.filterMap_cons_some]
        · rfl
        · show (candidateAt s st).bind jsonLoads = some v
          rw [hc]
          show jsonLoads cand = some v
          exact hj

/-- C5: the brace scan is exactly the specified candidate search:
candidates are taken at every opening-brace position in ascending order;
for a given start the single candidate is the substring ending at the
first depth-zero closing brace (characterised by brace counting); the
first candidate that parses is returned, and a failed parse abandons its
start position entirely. -/
theorem C5_brace_scan_refinement (s : List Char) :
    tryStarts s (braceStarts s) = specScan s := by
  rw [tryStarts_eq_filterMap]
  unfold specScan
  have hfun : ∀ st, (candidateAt s st).bind jsonLoads =
      (specCloseIdx s st).bind
        (fun i => jsonLoads ((s.drop st).take (i + 1 - st))) := by
    intro st
    unfold candidateAt
    rw [scanEnd_eq_specCloseIdx]
    cases specCloseIdx s st with
    | none => rfl
    | some i => rfl
  rw [show (fun st => (candidateAt s st).bind jsonLoads) =
      (fun st => (specCloseIdx s st).bind
        (fun i => jsonLoads ((s.drop st).take (i + 1 - st)))) from funext hfun]

/-! ## Helper lemmas: fence stripping -/

theorem charOfNat_lower_ne : ∀ k < 123, 97 ≤ k → Char.ofNat k ≠ '`' := by decide

theorem toLower_eq_backtick {c : Char} (h : Char.toLower c = '`') : c = '`' := by
  simp only [Char.toLower] at h
  split at h
  · next hr =>
    exfalso
    refine charOfNat_lower_ne (Char.toNat c + 32) (by omega) (by omega) h
  · exact h

theorem ciEq_backtick_false {c : Char} (h : c ≠ '`') : ciEq '`' c = false := by
  unfold ciEq
  rw [show Char.toLower '`' = '`' from rfl]
  by_contra hx
  rw [Bool.not_eq_false, beq_iff_eq] at hx
  exact h (toLower_eq_backtick hx.symm)

theorem ciStarts_tick_head {p : List Char} {c : Char} {cs : List Char} (h : c ≠ '`') :
    ciStarts ('`' :: p) (c :: cs) = false := by
  show (ciEq '`' c && ciStarts p cs) = false
  rw [ciEq_backtick_false h]
  rfl

theorem listStarts_tick_head {p : List Char} {c : Char} {cs : List Char} (h : c ≠ '`') :
    listStarts ('`' :: p) (c :: cs) = false := by
  show (('`' == c) && listStarts p cs) = false
  have hb : ('`' == c) = false := by
    rw [beq_eq_false_iff_ne]
    exact fun hx => h hx.symm
  rw [hb]
  rfl

theorem stripOpenGo_skip {m : List Char} (hm : '`' ∉ m) (fuel : Nat) (rest : List Char) :
    stripOpenGo (m.length + fuel) (m ++ rest) = m ++ stripOpenGo fuel rest := by
  induction m with
  | nil => simp
  | cons c m' ih =>
    have hc : c ≠ '`' := fun hx => hm (by rw [hx]; exact List.Mem.head _)
    have hm' : '`' ∉ m' := fun hx => hm (List.Mem.tail _ hx)
    have harith : (c :: m').length + fuel = (m'.length + fuel) + 1 := by
      simp only [List.length_cons]
      omega
    rw [harith]
    show (if ciStarts fenceJson (c :: (m' ++ rest)) then
            stripOpenGo (m'.length + fuel) (List.drop 8 (c :: (m' ++ rest)))
          else if ciStarts fencePlain (c :: (m' ++ rest)) then
            stripOpenGo (m'.length + fuel) (List.drop 4 (c :: (m' ++ rest)))
          else c :: stripOpenGo (m'.length + fuel) (m' ++ rest)) =
        (c :: m') ++ stripOpenGo fuel rest
    rw [show ciStarts fenceJson (c :: (m' ++ rest)) = false from ciStarts_tick_head hc]
    rw [show ciStarts fencePlain (c :: (m' ++ rest)) = false from ciStarts_tick_head hc]
    simp only [Bool.false_eq_true, if_false]
    rw [ih hm']
    rfl

theorem stripTicksGo_skip {m : List Char} (hm : '`' ∉ m) (fuel : Nat) (rest : List Char) :
    stripTicksGo (m.length + fuel) (m ++ rest) = m ++ stripTicksGo fuel rest := by
  induction m with
  | nil => simp
  | cons c m' ih =>
    have hc : c ≠ '`' := fun hx => hm (by rw [hx]; exact List.Mem.head _)
    have hm' : '`' ∉ m' := fun hx => hm (List.Mem.tail _ hx)
    have harith : (c :: m').length + fuel = (m'.length + fuel) + 1 := by
      simp only [List.length_cons]
      omega
    rw [harith]
    show (if listStarts ticks (c :: (m' ++ rest)) then
            stripTicksGo (m'.length + fuel) (List.drop 3 (c :: (m' ++ rest)))
          else c :: stripTicksGo (m'.length + fuel) (m' ++ rest)) =
        (c :: m') ++ stripTicksGo fuel rest
    rw [show listStarts ticks (c :: (m' ++ rest)) = false from listStarts_tick_head hc]
    simp only [Bool.false_eq_true, if_false]
    rw [ih hm']
    rfl

theorem stripFences_id {s : List Char} (h : '`' ∉ s) : stripFences s = s := by
  have h1 : stripOpenGo s.length s = s := by
    have h2 := stripOpenGo_skip h 0 ([] : List Char)
    simpa [stripOpenGo] using h2
  show stripTicksGo (stripOpenGo s.length s).length (stripOpenGo s.length s) = s
  rw [h1]
  have h3 := stripTicksGo_skip h 0 ([] : List Char)
  simpa [stripTicksGo] using h3

theorem stripFences_fenceWrap {m : List Char} (hm : '`' ∉ m) :
    stripFences (fenceWrap m) = m ++ '\n' :: [] := by
  show stripTicksGo (stripOpenGo (fenceWrap m).length (fenceWrap m)).length
      (stripOpenGo (fenceWrap m).length (fenceWrap m)) = m ++ '\n' :: []
  have hlen1 : (fenceWrap m).length = (m.length + 11) + 1 := by
    simp only [fenceWrap, fenceJson, ticks, List.length_append, List.length_cons]
    simp
    omega
  rw [hlen1]
  have hopen : stripOpenGo ((m.length + 11) + 1) (fenceWrap m) = m ++ '\n' :: ticks := by
    have hstep : stripOpenGo ((m.length + 11) + 1) (fenceWrap m) =
        stripOpenGo (m.length + 11) (m ++ '\n' :: ticks) := rfl
    rw [hstep, stripOpenGo_skip hm 11 ('\n' :: ticks)]
    rfl
  rw [hopen]
  have hlen2 : (m ++ '\n' :: ticks).length = m.length + 4 := by
    simp [ticks]
  rw [hlen2, stripTicksGo_skip hm 4 ('\n' :: ticks)]
  rfl

theorem jsonLoads_backtick (t : List Char) : jsonLoads ('`' :: t) = none := rfl

/-! ## Claim theorems: fence transparency -/

/-- C4 (amended): fence-stripping is transparent for a valid
mapping-text `m` that contains no backtick and whose brace scan (of `m`
followed by the newline the fence leaves behind) recovers the direct
parse of `m`; the scan hypothesis can fail when a brace occurs inside a
string literal of `m`, and the backtick hypothesis excludes fence
tokens inside `m` being eaten by the stripper. -/
theorem C4_fence_transparent_amended (m : List Char) (v : JSONValue)
    (hm : '`' ∉ m)
    (hdirect : jsonLoads m = some v)
    (hscan : extractJsonFromText (m ++ '\n' :: []) = some v) :
    recoverParsed (fenceWrap m) = recoverParsed m := by
  have hR : recoverParsed m = v := by
    unfold recoverParsed
    rw [hdirect]
  have hL1 : jsonLoads (fenceWrap m) = none := jsonLoads_backtick _
  have hmn : '`' ∉ m ++ '\n' :: [] := by
    intro hx
    rcases List.mem_append.mp hx with h1 | h1
    · exact hm h1
    · simp at h1
  have hns : m ++ '\n' :: [] ≠ [] := by
    intro hx
    exact absurd (congrArg List.length hx) (by simp)
  have hfw : fenceWrap m ≠ [] := List.cons_ne_nil _ _
  have hEq : extractJsonFromText (fenceWrap m) = extractJsonFromText (m ++ '\n' :: []) := by
    unfold extractJsonFromText
    rw [if_neg hfw, if_neg hns]
    show tryStarts (stripFences (fenceWrap m)) (braceStarts (stripFences (fenceWrap m))) =
        tryStarts (stripFences (m ++ '\n' :: [])) (braceStarts (stripFences (m ++ '\n' :: [])))
    rw [stripFences_fenceWrap hm, stripFences_id hmn]
  rw [hR]
  unfold recoverParsed
  rw [hL1, hEq, hscan]

/-- C4 counterexample: for the valid mapping-text m = {"a": "}"} the
closing brace inside the string value terminates the brace scan early,
so recovering the fenced form yields the wrapper while recovering m
directly yields the parsed object. -/
theorem C4_counterexample :
    recoverParsed (fenceWrap
        ('{' :: '"' :: 'a' :: '"' :: ':' :: ' ' :: '"' :: '}' :: '"' :: '}' :: [])) ≠
      recoverParsed ('{' :: '"' :: 'a' :: '"' :: ':' :: ' ' :: '"' :: '}' :: '"' :: '}' :: []) := by
  intro h
  have h2 := congrArg (fun w => (JSONValue.objMembers w).map Prod.fst) h
  exact absurd h2 (by decide)

theorem C4_witness :
    recoverParsed (fenceWrap ('{' :: '"' :: 'a' :: '"' :: ':' :: '1' :: '}' :: [])) =
      recoverParsed ('{' :: '"' :: 'a' :: '"' :: ':' :: '1' :: '}' :: []) :=
  C4_fence_transparent_amended _ _ (by decide) rfl rfl

end ContractBot
